import Mathlib

/-!
Shallow embedding of the smart-pause-resume arbitration engine.

The primary source is `smart-pause-resume@gnome-extension/extension.js`; the
bash variant (`src/unnamed/part_000`) supplies the startup scan with a
designated player that some claims refer to.

Modelling conventions:
* A JS `Map` is an association list (`List (String × String)`); `Map.set`
  updates the first occurrence in place or appends a fresh key, matching JS
  insertion-order semantics, `Map.get` finds the first occurrence and
  `Map.delete` filters.
* A JS `Set` is a `List String` with membership tested by `List.contains`.
* Asynchronous D-Bus `Pause`/`Play` calls are resolved by success oracles
  (`String → Bool`); the completion callback runs inline (settled semantics:
  every issued command's completion is processed before the next event).
* The resume-delay timer of `_onStatusChanged` is modelled as firing with no
  intervening event, so its freshness re-check (cached status `Playing`)
  does not abort and the timer body runs as part of the notification.
* Issued commands are returned alongside the new state so that claims about
  which commands are sent can be stated.
-/

/-- A remote command issued by the engine to an endpoint. -/
inductive Cmd where
  | pause (id : String)
  | play (id : String)
deriving DecidableEq, Repr

/-- JS `Map.get`: value of the first binding of `k`, if any. -/
def mapGet (m : List (String × String)) (k : String) : Option String :=
  (m.find? (fun p => p.1 == k)).map (fun p => p.2)

/-- JS `Map.set`: overwrite the first binding of `k` in place, else append. -/
def mapSet : List (String × String) → String → String → List (String × String)
  | [], k, v => [(k, v)]
  | p :: rest, k, v =>
      if p.1 == k then (k, v) :: rest else p :: mapSet rest k v

/-- JS `Map.delete`: drop every binding of `k`. -/
def mapDelete (m : List (String × String)) (k : String) : List (String × String) :=
  m.filter (fun p => p.1 != k)

/-- JS `Set.add`: append `x` when absent. -/
def setAdd (s : List String) (x : String) : List String :=
  if s.contains x then s else s ++ [x]

/-- JS `Set.delete`: drop every occurrence of `x`. -/
def setDelete (s : List String) (x : String) : List String :=
  s.filter (fun y => y != x)

/-- `_pushStack`: filter out `busName`, then `unshift` it (index 0 = top). -/
def pushStack (stack : List String) (busName : String) : List String :=
  busName :: stack.filter (fun name => name != busName)

/-- `_removeFromStack`: filter out `busName`. -/
def removeFromStack (stack : List String) (busName : String) : List String :=
  stack.filter (fun name => name != busName)

/-- The mutable state of `SmartPauseResumeExtension` that the arbitration
logic touches: `_players` (keys only — the proxies are the command boundary),
`_status`, `_autoPaused` and `_pausedStack`. -/
structure Engine where
  players : List String
  status : List (String × String)
  autoPaused : List String
  pausedStack : List String
deriving DecidableEq, Repr

/-- The engine state at startup (`constructor`). -/
def initEngine : Engine := ⟨[], [], [], []⟩

/-- `_anyPlaying`: some recorded status equals `"Playing"`. -/
def anyPlaying (st : Engine) : Bool :=
  st.status.any (fun p => p.2 == "Playing")

/-- The issue-time part of `_pausePlayer`: before the asynchronous `Pause`
call is made, the bus name is added to `_autoPaused`; nothing else changes
until the completion callback runs. -/
def pausePlayerIssue (st : Engine) (busName : String) : Engine :=
  if st.players.contains busName then
    { st with autoPaused := setAdd st.autoPaused busName }
  else st

/-- The completion callback of `_pausePlayer`'s `Pause` call: on success the
status is set to `"Paused"` and the bus name pushed onto the stack; on
failure the auto-paused flag is deleted. -/
def pausePlayerComplete (st : Engine) (busName : String) (success : Bool) : Engine :=
  if success then
    { st with status := mapSet st.status busName "Paused",
              pausedStack := pushStack st.pausedStack busName }
  else
    { st with autoPaused := setDelete st.autoPaused busName }

/-- `_pausePlayer` with the command outcome given by the oracle `po`:
no-op when the player is unknown, otherwise the issue-time mutation followed
by the completion callback, recording the issued `Pause` command. -/
def pausePlayer (po : String → Bool) (st : Engine) (busName : String) :
    Engine × List Cmd :=
  if st.players.contains busName then
    (pausePlayerComplete (pausePlayerIssue st busName) busName (po busName),
     [Cmd.pause busName])
  else (st, [])

/-- The loop body of `_pauseOthers` over a snapshot of the `_players` keys:
every player other than `currentBusName` whose recorded status is
`"Playing"` is passed to `_pausePlayer`. -/
def pauseOthersGo (po : String → Bool) (currentBusName : String) :
    List String → Engine → Engine × List Cmd
  | [], st => (st, [])
  | busName :: rest, st =>
      if busName == currentBusName then pauseOthersGo po currentBusName rest st
      else if mapGet st.status busName == some "Playing" then
        let r1 := pausePlayer po st busName
        let r2 := pauseOthersGo po currentBusName rest r1.1
        (r2.1, r1.2 ++ r2.2)
      else pauseOthersGo po currentBusName rest st

/-- `_pauseOthers`. -/
def pauseOthers (po : String → Bool) (st : Engine) (currentBusName : String) :
    Engine × List Cmd :=
  pauseOthersGo po currentBusName st.players st

/-- Result of the `_resumeNext` loop: the final `_status`, `_autoPaused` and
`_pausedStack`, plus the `Play` commands issued (in order). -/
structure ResumeOut where
  status : List (String × String)
  autoPaused : List String
  stack : List String
  cmds : List Cmd
deriving DecidableEq, Repr

/-- The `while` loop of `_resumeNext`: `shift` the top of `_pausedStack`;
skip it when it has no `_status` entry or no `_players` entry; otherwise
issue `Play`.  On success set the status to `"Playing"` and clear the
auto-paused flag; on failure the catch handler calls `_resumeNext` again
(the registry entry is not deleted). -/
def resumeGo (plo : String → Bool) (players : List String)
    (status : List (String × String)) (autoPaused : List String) :
    List String → ResumeOut
  | [] => ⟨status, autoPaused, [], []⟩
  | busName :: rest =>
      if (mapGet status busName).isNone || !(players.contains busName) then
        resumeGo plo players status autoPaused rest
      else if plo busName then
        ⟨mapSet status busName "Playing", setDelete autoPaused busName, rest,
         [Cmd.play busName]⟩
      else
        let r := resumeGo plo players status autoPaused rest
        ⟨r.status, r.autoPaused, r.stack, Cmd.play busName :: r.cmds⟩

/-- `_resumeNext` with the `Play` outcomes given by the oracle `plo`. -/
def resumeNext (plo : String → Bool) (st : Engine) : Engine × List Cmd :=
  let r := resumeGo plo st.players st.status st.autoPaused st.pausedStack
  ({ players := st.players, status := r.status, autoPaused := r.autoPaused,
     pausedStack := r.stack }, r.cmds)

/-- `_onStatusChanged`.  `enabled` is the `'enabled'` setting; `po`/`plo`
resolve issued `Pause`/`Play` commands.  The resume-delay timer of the
user-initiated branch is modelled as firing with no intervening event, so
the cached status it re-checks is the status just notified (not
`"Playing"`) and its body runs. -/
def onStatusChanged (enabled : Bool) (po plo : String → Bool)
    (st : Engine) (busName status : String) : Engine × List Cmd :=
  if !enabled then (st, [])
  else
    let st1 : Engine := { st with status := mapSet st.status busName status }
    if status == "Playing" then
      let st2 : Engine :=
        { st1 with autoPaused := setDelete st1.autoPaused busName,
                   pausedStack := removeFromStack st1.pausedStack busName }
      pauseOthers po st2 busName
    else if status == "Paused" || status == "Stopped" then
      if st1.autoPaused.contains busName then
        ({ st1 with autoPaused := setDelete st1.autoPaused busName }, [])
      else
        let st2 : Engine :=
          { st1 with pausedStack := removeFromStack st1.pausedStack busName }
        if anyPlaying st2 then (st2, []) else resumeNext plo st2
    else (st1, [])

/-- `_removePlayer`: drop the player from `_players`, `_status`,
`_autoPaused` and the stack, then resume the next player when nothing is
left playing. -/
def removePlayer (plo : String → Bool) (st : Engine) (busName : String) :
    Engine × List Cmd :=
  let st1 : Engine :=
    { players := st.players.filter (fun name => name != busName),
      status := mapDelete st.status busName,
      autoPaused := setDelete st.autoPaused busName,
      pausedStack := removeFromStack st.pausedStack busName }
  if anyPlaying st1 then (st1, []) else resumeNext plo st1

/-- `_addPlayer` followed by `_onPlayerProxyReady`/`_updatePlayerStatus`:
no-op when already known, otherwise register the player and process its
observed initial status through `_onStatusChanged`. -/
def addPlayer (enabled : Bool) (po plo : String → Bool)
    (st : Engine) (busName status : String) : Engine × List Cmd :=
  if st.players.contains busName then (st, [])
  else
    onStatusChanged enabled po plo
      { st with players := st.players ++ [busName] } busName status

/-- An event of the serialized processing stream: a status notification for
a tracked player, a player appearing (with its observed initial status), or
a player disappearing. -/
inductive Event where
  | note (busName status : String)
  | add (busName status : String)
  | remove (busName : String)
deriving DecidableEq, Repr

/-- Dispatch one event. -/
def stepEvent (enabled : Bool) (po plo : String → Bool) (st : Engine) :
    Event → Engine × List Cmd
  | Event.note busName status => onStatusChanged enabled po plo st busName status
  | Event.add busName status => addPlayer enabled po plo st busName status
  | Event.remove busName => removePlayer plo st busName

/-- Process a finite event sequence one at a time, each fully settled. -/
def runEvents (enabled : Bool) (po plo : String → Bool) :
    Engine → List Event → Engine
  | st, [] => st
  | st, e :: es => runEvents enabled po plo (stepEvent enabled po plo st e).1 es

/-- The bash script's state: `STATUS`, `AUTO_PAUSED` and `QUEUE`. -/
structure ScriptState where
  STATUS : List (String × String)
  AUTO_PAUSED : List String
  QUEUE : List String
deriving DecidableEq, Repr

/-- `push_stack` of the script: drop existing occurrences, put on top. -/
def push_stack (q : List String) (p : String) : List String :=
  p :: q.filter (fun x => x != p)

/-- `pause_player` of the script: set the auto-paused flag, pause (outcome
ignored), record `Paused`, push onto the queue. -/
def pause_player (st : ScriptState) (p : String) : ScriptState :=
  { STATUS := mapSet st.STATUS p "Paused",
    AUTO_PAUSED := setAdd st.AUTO_PAUSED p,
    QUEUE := push_stack st.QUEUE p }

/-- At most one tracked endpoint (one with a `_players` record) has recorded
status `"Playing"`. -/
def TrackedAtMostOnePlaying (st : Engine) : Prop :=
  ∀ k1 k2 : String,
    st.players.contains k1 = true → mapGet st.status k1 = some "Playing" →
    st.players.contains k2 = true → mapGet st.status k2 = some "Playing" →
    k1 = k2

/-! ## Helper lemmas about the map and set embeddings -/

theorem mapGet_nil (k : String) : mapGet [] k = none := rfl

theorem mapGet_cons (p : String × String) (rest : List (String × String)) (k : String) :
    mapGet (p :: rest) k = if p.1 == k then some p.2 else mapGet rest k := by
  cases h : (p.1 == k) <;> simp [mapGet, List.find?_cons, h]

theorem mapGet_mapSet (m : List (String × String)) (k v k2 : String) :
    mapGet (mapSet m k v) k2 = if k2 = k then some v else mapGet m k2 := by
  induction m with
  | nil =>
      rw [show mapSet [] k v = [(k, v)] from rfl, mapGet_cons]
      by_cases h : k2 = k
      · simp [h]
      · simp [beq_eq_false_iff_ne.mpr (fun e : k = k2 => h e.symm), h, mapGet_nil]
  | cons p rest ih =>
      cases hb : (p.1 == k) with
      | true =>
          have hp : p.1 = k := beq_iff_eq.mp hb
          by_cases h2 : k2 = k
          · simp [mapSet, hb, mapGet_cons, h2]
          · simp [mapSet, hb, mapGet_cons, h2,
              beq_eq_false_iff_ne.mpr (fun e : k = k2 => h2 e.symm),
              beq_eq_false_iff_ne.mpr
                (fun e : p.1 = k2 => h2 ((hp.symm.trans e).symm ▸ rfl))]
      | false =>
          have hp : ¬ p.1 = k := by simpa using hb
          by_cases hpk2 : p.1 = k2
          · simp [mapSet, hb, mapGet_cons, beq_iff_eq.mpr hpk2,
              show ¬ k2 = k from fun e => hp (hpk2.trans e)]
          · simp [mapSet, hb, mapGet_cons, beq_eq_false_iff_ne.mpr hpk2, ih]

theorem mapGet_mapDelete (m : List (String × String)) (k k2 : String) :
    mapGet (mapDelete m k) k2 = if k2 = k then none else mapGet m k2 := by
  induction m with
  | nil => by_cases h : k2 = k <;> simp [mapDelete, mapGet_nil, h]
  | cons p rest ih =>
      cases hb : (p.1 == k) with
      | true =>
          have hp : p.1 = k := beq_iff_eq.mp hb
          have hstep : mapDelete (p :: rest) k = mapDelete rest k := by
            simp [mapDelete, List.filter_cons, hp]
          rw [hstep, ih, mapGet_cons]
          by_cases h2 : k2 = k
          · simp [h2]
          · simp [h2, beq_eq_false_iff_ne.mpr
              (fun e : p.1 = k2 => h2 ((hp.symm.trans e).symm ▸ rfl))]
      | false =>
          have hp : ¬ p.1 = k := by simpa using hb
          have hstep : mapDelete (p :: rest) k = p :: mapDelete rest k := by
            simp [mapDelete, List.filter_cons, hp]
          rw [hstep, mapGet_cons, mapGet_cons]
          by_cases hpk2 : p.1 = k2
          · simp [beq_iff_eq.mpr hpk2, show ¬ k2 = k from fun e => hp (hpk2.trans e)]
          · simp only [beq_eq_false_iff_ne.mpr hpk2, Bool.false_eq_true, if_false]
            rw [ih]

theorem mapGet_mem {m : List (String × String)} {k v : String}
    (h : mapGet m k = some v) : (k, v) ∈ m := by
  unfold mapGet at h
  cases hf : m.find? (fun p => p.1 == k) with
  | none => rw [hf] at h; simp at h
  | some q =>
      rw [hf] at h
      simp only [Option.map_some', Option.some.injEq] at h
      have hq := List.find?_some hf
      simp only [beq_iff_eq] at hq
      have hmem := List.mem_of_find?_eq_some hf
      have hqkv : q = (k, v) := by cases q; simp_all
      rw [← hqkv]
      exact hmem

theorem contains_eq (l : List String) (a : String) : l.contains a = decide (a ∈ l) :=
  List.elem_eq_mem a l

theorem contains_filter_ne {q : List String} {k p : String} (h : k ≠ p) :
    (q.filter (fun x => x != p)).contains k = q.contains k := by
  simp only [contains_eq, decide_eq_decide, List.mem_filter]
  constructor
  · exact fun hc => hc.1
  · exact fun hc => ⟨hc, by simpa using h⟩

theorem contains_setAdd (s : List String) (x k : String) :
    (setAdd s x).contains k = (s.contains k || (k == x)) := by
  unfold setAdd
  by_cases hm : s.contains x
  · rw [if_pos hm, Bool.eq_iff_iff]
    by_cases hk : k = x
    · subst hk
      simp [contains_eq] at hm
      simp [hm]
    · simp [beq_eq_false_iff_ne.mpr hk]
  · rw [if_neg hm, Bool.eq_iff_iff]
    by_cases hk : k = x
    · subst hk
      simp [contains_eq]
    · simp [contains_eq, beq_eq_false_iff_ne.mpr hk, hk]

theorem contains_setDelete (s : List String) (x k : String) :
    (setDelete s x).contains k = (s.contains k && (k != x)) := by
  unfold setDelete
  by_cases hk : k = x
  · subst hk
    have hnmem : k ∉ s.filter (fun y => y != k) := fun hc => by
      have := (List.mem_filter.mp hc).2
      simp at this
    rw [Bool.eq_iff_iff]
    simp [contains_eq, hnmem]
  · rw [contains_filter_ne hk]
    simp [hk]

theorem setDelete_setAdd (s : List String) (x : String) :
    setDelete (setAdd s x) x = setDelete s x := by
  unfold setAdd setDelete
  by_cases hm : s.contains x
  · rw [if_pos hm]
  · rw [if_neg hm, List.filter_append]
    simp

theorem anyPlaying_false_get {st : Engine} (h : anyPlaying st = false) :
    ∀ k, mapGet st.status k ≠ some "Playing" := by
  intro k hk
  have hmem := mapGet_mem hk
  have := (List.any_eq_false.mp h) _ hmem
  simp at this

/-! ## Frame and preservation lemmas for the engine operations -/

theorem pausePlayer_players (po : String → Bool) (st : Engine) (b : String) :
    (pausePlayer po st b).1.players = st.players := by
  unfold pausePlayer pausePlayerComplete pausePlayerIssue
  by_cases h : b ∈ st.players <;> by_cases hp : po b <;> simp [contains_eq, h, hp]

theorem pauseOthersGo_players (po : String → Bool) (cur : String) :
    ∀ (ps : List String) (st : Engine),
      (pauseOthersGo po cur ps st).1.players = st.players := by
  intro ps
  induction ps with
  | nil => intro st; rfl
  | cons b rest ih =>
      intro st
      unfold pauseOthersGo
      by_cases hb : b == cur
      · simp [hb, ih]
      · by_cases hs : mapGet st.status b == some "Playing"
        · simp only [hb, hs, Bool.false_eq_true, if_neg, if_pos, not_false_iff]
          simp [ih, pausePlayer_players]
        · simp [hb, hs, ih]

theorem pausePlayer_stack (po : String → Bool) (st : Engine) (b : String) :
    (pausePlayer po st b).1.pausedStack = st.pausedStack ∨
    (pausePlayer po st b).1.pausedStack = pushStack st.pausedStack b := by
  unfold pausePlayer pausePlayerComplete pausePlayerIssue
  by_cases h : b ∈ st.players <;> by_cases hp : po b <;> simp [contains_eq, h, hp]

theorem pausePlayer_get (po : String → Bool) (st : Engine) (b q : String) :
    mapGet (pausePlayer po st b).1.status q = mapGet st.status q ∨
    (q = b ∧ mapGet (pausePlayer po st b).1.status q = some "Paused") := by
  unfold pausePlayer pausePlayerComplete pausePlayerIssue
  by_cases h : b ∈ st.players <;> by_cases hp : po b
  · by_cases hq : q = b
    · exact Or.inr ⟨hq, by simp [contains_eq, h, hp, mapGet_mapSet, hq]⟩
    · exact Or.inl (by simp [contains_eq, h, hp, mapGet_mapSet, hq])
  · exact Or.inl (by simp [contains_eq, h, hp])
  · exact Or.inl (by simp [contains_eq, h, hp])
  · exact Or.inl (by simp [contains_eq, h, hp])

theorem pauseOthersGo_get (po : String → Bool) (cur : String) :
    ∀ (ps : List String) (st : Engine) (q : String),
      mapGet (pauseOthersGo po cur ps st).1.status q = mapGet st.status q ∨
      mapGet (pauseOthersGo po cur ps st).1.status q = some "Paused" := by
  intro ps
  induction ps with
  | nil => intro st q; exact Or.inl rfl
  | cons b rest ih =>
      intro st q
      unfold pauseOthersGo
      by_cases hb : b == cur
      · simp only [hb, if_pos]
        exact ih st q
      · by_cases hs : mapGet st.status b == some "Playing"
        · simp only [hb, hs, Bool.false_eq_true, if_neg, if_pos, not_false_iff]
          rcases ih (pausePlayer po st b).1 q with h | h
          · rw [h]
            rcases pausePlayer_get po st b q with h2 | h2
            · exact Or.inl h2
            · exact Or.inr h2.2
          · exact Or.inr h
        · simp only [hb, hs, Bool.false_eq_true, if_neg, not_false_iff]
          exact ih st q

theorem pauseOthersGo_not_playing (po : String → Bool) (hpo : ∀ i, po i = true)
    (cur : String) :
    ∀ (ps : List String) (st : Engine) (q : String),
      (∀ x ∈ ps, st.players.contains x = true) →
      q ∈ ps → q ≠ cur →
      mapGet (pauseOthersGo po cur ps st).1.status q ≠ some "Playing" := by
  intro ps
  induction ps with
  | nil => intro st q _ hq; exact absurd hq (List.not_mem_nil q)
  | cons b rest ih =>
      intro st q hsub hq hqcur
      unfold pauseOthersGo
      by_cases hb : b == cur
      · simp only [hb, if_pos]
        have hqrest : q ∈ rest := by
          rcases List.mem_cons.mp hq with h | h
          · exact absurd (h ▸ (beq_iff_eq.mp hb)) hqcur
          · exact h
        exact ih st q (fun x hx => hsub x (List.mem_cons_of_mem b hx)) hqrest hqcur
      · by_cases hs : mapGet st.status b == some "Playing"
        · simp only [hb, hs, Bool.false_eq_true, if_neg, if_pos, not_false_iff]
          have hplayers : (pausePlayer po st b).1.players = st.players :=
            pausePlayer_players po st b
          rcases List.mem_cons.mp hq with hqb | hqrest
          · subst hqb
            intro hcontra
            rcases pauseOthersGo_get po cur rest (pausePlayer po st q).1 q with h | h
            · rw [h] at hcontra
              have hcq : st.players.contains q = true := hsub q (List.mem_cons_self q rest)
              have hget : mapGet (pausePlayer po st q).1.status q = some "Paused" := by
                unfold pausePlayer pausePlayerComplete pausePlayerIssue
                have hmem : q ∈ st.players := by
                  rw [contains_eq] at hcq
                  exact of_decide_eq_true hcq
                simp [contains_eq, hmem, hpo q, mapGet_mapSet]
              rw [hget] at hcontra
              simp at hcontra
            · rw [h] at hcontra
              simp at hcontra
          · exact ih (pausePlayer po st b).1 q
              (fun x hx => by rw [hplayers]; exact hsub x (List.mem_cons_of_mem b hx))
              hqrest hqcur
        · simp only [hb, hs, Bool.false_eq_true, if_neg, not_false_iff]
          rcases List.mem_cons.mp hq with hqb | hqrest
          · subst hqb
            intro hcontra
            rcases pauseOthersGo_get po cur rest st q with h | h
            · rw [h] at hcontra
              rw [hcontra] at hs
              simp at hs
            · rw [h] at hcontra
              simp at hcontra
          · exact ih st q (fun x hx => hsub x (List.mem_cons_of_mem b hx)) hqrest hqcur

theorem resumeGo_atMostOne (plo : String → Bool) (players : List String)
    (status : List (String × String)) (auto : List String) :
    ∀ (stack : List String),
      (∀ k, mapGet status k ≠ some "Playing") →
      ∀ q1 q2,
        mapGet (resumeGo plo players status auto stack).status q1 = some "Playing" →
        mapGet (resumeGo plo players status auto stack).status q2 = some "Playing" →
        q1 = q2 := by
  intro stack
  induction stack with
  | nil =>
      intro h q1 q2 h1 _
      exact absurd h1 (h q1)
  | cons b rest ih =>
      intro h q1 q2 h1 h2
      unfold resumeGo at h1 h2
      by_cases hv : ((mapGet status b).isNone || !(players.contains b)) = true
      · rw [if_pos hv] at h1 h2
        exact ih h q1 q2 h1 h2
      · rw [if_neg hv] at h1 h2
        by_cases hp : plo b
        · rw [if_pos hp] at h1 h2
          simp only [mapGet_mapSet] at h1 h2
          by_cases e1 : q1 = b
          · by_cases e2 : q2 = b
            · rw [e1, e2]
            · rw [if_neg e2] at h2
              exact absurd h2 (h q2)
          · rw [if_neg e1] at h1
            exact absurd h1 (h q1)
        · rw [if_neg hp] at h1 h2
          exact ih h q1 q2 h1 h2

theorem resumeGo_stack_sublist (plo : String → Bool) (players : List String)
    (status : List (String × String)) (auto : List String) :
    ∀ (stack : List String),
      ((resumeGo plo players status auto stack).stack).Sublist stack := by
  intro stack
  induction stack with
  | nil => exact List.Sublist.refl []
  | cons b rest ih =>
      unfold resumeGo
      by_cases hv : ((mapGet status b).isNone || !(players.contains b)) = true
      · rw [if_pos hv]
        exact ih.cons b
      · rw [if_neg hv]
        by_cases hp : plo b
        · rw [if_pos hp]
          exact (List.Sublist.refl rest).cons b
        · rw [if_neg hp]
          exact ih.cons b

theorem bool_ne_false_eq_true {b : Bool} (h : ¬ b = false) : b = true := by
  cases b
  · exact absurd rfl h
  · rfl

theorem valid_unpack {status : List (String × String)} {players : List String} {b : String}
    (hv : ¬ (((mapGet status b).isNone || !(players.contains b)) = true)) :
    (mapGet status b).isSome = true ∧ players.contains b = true := by
  simp only [Bool.or_eq_true, Bool.not_eq_true'] at hv
  rcases not_or.mp hv with ⟨h1, h2⟩
  refine ⟨?_, bool_ne_false_eq_true h2⟩
  cases hs : mapGet status b with
  | none => exact absurd (by simp [hs]) h1
  | some v => simp

theorem resumeGo_playing_tracked (plo : String → Bool) (players : List String)
    (status : List (String × String)) (auto : List String) :
    ∀ (stack : List String),
      (∀ k, mapGet status k ≠ some "Playing") →
      ∀ q, mapGet (resumeGo plo players status auto stack).status q = some "Playing" →
        players.contains q = true := by
  intro stack
  induction stack with
  | nil => intro h q hq; exact absurd hq (h q)
  | cons b rest ih =>
      intro h q hq
      unfold resumeGo at hq
      by_cases hv : ((mapGet status b).isNone || !(players.contains b)) = true
      · rw [if_pos hv] at hq
        exact ih h q hq
      · rw [if_neg hv] at hq
        by_cases hp : plo b
        · rw [if_pos hp] at hq
          simp only [mapGet_mapSet] at hq
          by_cases e : q = b
          · subst e
            exact (valid_unpack hv).2
          · rw [if_neg e] at hq
            exact absurd hq (h q)
        · rw [if_neg hp] at hq
          exact ih h q hq

theorem resumeGo_allfail (plo : String → Bool) (hplo : ∀ i, plo i = false)
    (players : List String) (status : List (String × String)) (auto : List String) :
    ∀ (stack : List String),
      resumeGo plo players status auto stack =
        ⟨status, auto, [],
         (stack.filter (fun b => (mapGet status b).isSome && players.contains b)).map
           Cmd.play⟩ := by
  intro stack
  induction stack with
  | nil => rfl
  | cons b rest ih =>
      unfold resumeGo
      by_cases hv : ((mapGet status b).isNone || !(players.contains b)) = true
      · rw [if_pos hv, ih, List.filter_cons]
        have hfilter : ((mapGet status b).isSome && players.contains b) = false := by
          rcases (Bool.or_eq_true _ _).mp hv with h | h
          · simp [Option.isNone_iff_eq_none.mp h]
          · rw [Bool.not_eq_true'] at h
            rw [contains_eq] at h
            simp [of_decide_eq_false h]
        rw [hfilter]
        simp
      · rw [if_neg hv, if_neg (by rw [hplo b]; exact Bool.false_ne_true), ih]
        rw [List.filter_cons]
        have hfilter : ((mapGet status b).isSome && players.contains b) = true := by
          have h2 := (valid_unpack hv).2
          rw [contains_eq] at h2
          simp [(valid_unpack hv).1, of_decide_eq_true h2]
        rw [hfilter]
        simp

/-! ## Stack no-duplicates preservation -/

theorem pushStack_nodup {l : List String} (h : l.Nodup) (b : String) :
    (pushStack l b).Nodup := by
  unfold pushStack
  refine List.Nodup.cons ?_ (h.filter _)
  intro hmem
  have := (List.mem_filter.mp hmem).2
  simp at this

theorem removeFromStack_nodup {l : List String} (h : l.Nodup) (b : String) :
    (removeFromStack l b).Nodup := h.filter _

theorem pausePlayer_stack_nodup (po : String → Bool) {st : Engine} (b : String)
    (h : st.pausedStack.Nodup) : (pausePlayer po st b).1.pausedStack.Nodup := by
  rcases pausePlayer_stack po st b with hs | hs
  · rw [hs]; exact h
  · rw [hs]; exact pushStack_nodup h b

theorem pauseOthersGo_stack_nodup (po : String → Bool) (cur : String) :
    ∀ (ps : List String) (st : Engine), st.pausedStack.Nodup →
      (pauseOthersGo po cur ps st).1.pausedStack.Nodup := by
  intro ps
  induction ps with
  | nil => intro st h; exact h
  | cons b rest ih =>
      intro st h
      unfold pauseOthersGo
      by_cases hb : b == cur
      · simp only [hb, if_pos]
        exact ih st h
      · by_cases hs : mapGet st.status b == some "Playing"
        · simp only [hb, hs, Bool.false_eq_true, if_neg, if_pos, not_false_iff]
          exact ih _ (pausePlayer_stack_nodup po b h)
        · simp only [hb, hs, Bool.false_eq_true, if_neg, not_false_iff]
          exact ih st h

theorem resumeNext_stack_nodup (plo : String → Bool) {st : Engine}
    (h : st.pausedStack.Nodup) : (resumeNext plo st).1.pausedStack.Nodup := by
  unfold resumeNext
  exact (resumeGo_stack_sublist plo st.players st.status st.autoPaused
    st.pausedStack).nodup h

theorem onStatusChanged_stack_nodup (enabled : Bool) (po plo : String → Bool)
    (st : Engine) (b s : String) (h : st.pausedStack.Nodup) :
    (onStatusChanged enabled po plo st b s).1.pausedStack.Nodup := by
  unfold onStatusChanged
  by_cases he : enabled
  · simp only [he, Bool.not_true, Bool.false_eq_true, if_neg, not_false_iff]
    by_cases hs1 : s == "Playing"
    · simp only [hs1, if_pos]
      exact pauseOthersGo_stack_nodup po b st.players _ (removeFromStack_nodup h b)
    · simp only [hs1, Bool.false_eq_true, if_neg, not_false_iff]
      by_cases hs2 : (s == "Paused" || s == "Stopped") = true
      · simp only [hs2, if_pos]
        by_cases ha : ({ st with status := mapSet st.status b s } : Engine).autoPaused.contains b
        · simp only [ha, if_pos]
          exact h
        · simp only [ha, Bool.false_eq_true, if_neg, not_false_iff]
          by_cases hap : anyPlaying { st with
              status := mapSet st.status b s,
              pausedStack := removeFromStack st.pausedStack b }
          · simp only [hap, if_pos]
            exact removeFromStack_nodup h b
          · simp only [hap, Bool.false_eq_true, if_neg, not_false_iff]
            exact resumeNext_stack_nodup plo (removeFromStack_nodup h b)
      · simp only [hs2, Bool.false_eq_true, if_neg, not_false_iff]
        exact h
  · simp only [he]
    simpa using h

theorem afterRemoval_stack_nodup (plo : String → Bool) (st1 : Engine)
    (h : st1.pausedStack.Nodup) :
    (if anyPlaying st1 then (st1, ([] : List Cmd)) else resumeNext plo st1).1.pausedStack.Nodup := by
  by_cases hap : anyPlaying st1
  · simp only [hap, if_pos]
    exact h
  · simp only [hap, Bool.false_eq_true, if_neg, not_false_iff]
    exact resumeNext_stack_nodup plo h

theorem removePlayer_stack_nodup (plo : String → Bool) (st : Engine) (b : String)
    (h : st.pausedStack.Nodup) : (removePlayer plo st b).1.pausedStack.Nodup := by
  unfold removePlayer
  exact afterRemoval_stack_nodup plo _ (removeFromStack_nodup h b)

theorem addPlayer_stack_nodup (enabled : Bool) (po plo : String → Bool)
    (st : Engine) (b s : String) (h : st.pausedStack.Nodup) :
    (addPlayer enabled po plo st b s).1.pausedStack.Nodup := by
  unfold addPlayer
  by_cases hc : st.players.contains b
  · simp only [hc, if_pos]
    exact h
  · simp only [hc, Bool.false_eq_true, if_neg, not_false_iff]
    exact onStatusChanged_stack_nodup enabled po plo _ b s h

theorem stepEvent_stack_nodup (enabled : Bool) (po plo : String → Bool)
    (st : Engine) (e : Event) (h : st.pausedStack.Nodup) :
    (stepEvent enabled po plo st e).1.pausedStack.Nodup := by
  cases e with
  | note b s => exact onStatusChanged_stack_nodup enabled po plo st b s h
  | add b s => exact addPlayer_stack_nodup enabled po plo st b s h
  | remove b => exact removePlayer_stack_nodup plo st b h

theorem runEvents_stack_nodup (enabled : Bool) (po plo : String → Bool) :
    ∀ (es : List Event) (st : Engine), st.pausedStack.Nodup →
      (runEvents enabled po plo st es).pausedStack.Nodup := by
  intro es
  induction es with
  | nil => intro st h; exact h
  | cons e rest ih =>
      intro st h
      exact ih _ (stepEvent_stack_nodup enabled po plo st e h)

/-! ## Tracked single-player invariant preservation -/

theorem contains_mem {l : List String} {a : String} (h : l.contains a = true) : a ∈ l := by
  rw [contains_eq] at h
  exact of_decide_eq_true h

theorem mem_contains {l : List String} {a : String} (h : a ∈ l) : l.contains a = true := by
  rw [contains_eq]
  exact decide_eq_true h

theorem pauseOthers_tracked (po : String → Bool) (hpo : ∀ i, po i = true)
    (st2 : Engine) (b : String) :
    TrackedAtMostOnePlaying (pauseOthers po st2 b).1 := by
  unfold pauseOthers
  intro k1 k2 hc1 hg1 hc2 hg2
  have hplayers := pauseOthersGo_players po b st2.players st2
  have hk : ∀ k, (pauseOthersGo po b st2.players st2).1.players.contains k = true →
      mapGet (pauseOthersGo po b st2.players st2).1.status k = some "Playing" →
      k = b := by
    intro k hc hg
    by_contra hne
    rw [hplayers] at hc
    exact pauseOthersGo_not_playing po hpo b st2.players st2 k
      (fun x hx => mem_contains hx) (contains_mem hc) hne hg
  rw [hk k1 hc1 hg1, hk k2 hc2 hg2]

theorem tracked_mapSet_notPlaying (st res : Engine) (b s : String)
    (hs : ¬ s = "Playing") (hplayers : res.players = st.players)
    (hstatus : res.status = mapSet st.status b s)
    (hInv : ∀ k1 k2, k1 ≠ b → k2 ≠ b →
      st.players.contains k1 = true → mapGet st.status k1 = some "Playing" →
      st.players.contains k2 = true → mapGet st.status k2 = some "Playing" → k1 = k2) :
    TrackedAtMostOnePlaying res := by
  intro k1 k2 hc1 hg1 hc2 hg2
  rw [hstatus, mapGet_mapSet] at hg1 hg2
  rw [hplayers] at hc1 hc2
  by_cases e1 : k1 = b
  · rw [if_pos e1] at hg1
    exact absurd (Option.some.inj hg1) hs
  · rw [if_neg e1] at hg1
    by_cases e2 : k2 = b
    · rw [if_pos e2] at hg2
      exact absurd (Option.some.inj hg2) hs
    · rw [if_neg e2] at hg2
      exact hInv k1 k2 e1 e2 hc1 hg1 hc2 hg2

theorem tracked_resumeNext (plo : String → Bool) (st2 : Engine)
    (hnp : anyPlaying st2 = false) :
    TrackedAtMostOnePlaying (resumeNext plo st2).1 := by
  intro k1 k2 hc1 hg1 hc2 hg2
  unfold resumeNext at hg1 hg2
  exact resumeGo_atMostOne plo st2.players st2.status st2.autoPaused st2.pausedStack
    (anyPlaying_false_get hnp) k1 k2 hg1 hg2

theorem onStatusChanged_tracked (po plo : String → Bool) (hpo : ∀ i, po i = true)
    (st : Engine) (b s : String)
    (hInv : ∀ k1 k2, k1 ≠ b → k2 ≠ b →
      st.players.contains k1 = true → mapGet st.status k1 = some "Playing" →
      st.players.contains k2 = true → mapGet st.status k2 = some "Playing" → k1 = k2) :
    TrackedAtMostOnePlaying (onStatusChanged true po plo st b s).1 := by
  unfold onStatusChanged
  simp only [Bool.not_true, Bool.false_eq_true, if_neg, not_false_iff]
  by_cases hs1 : s == "Playing"
  · simp only [hs1, if_pos]
    exact pauseOthers_tracked po hpo _ b
  · simp only [hs1, Bool.false_eq_true, if_neg, not_false_iff]
    have hsne : ¬ s = "Playing" := by simpa using hs1
    by_cases hs2 : (s == "Paused" || s == "Stopped") = true
    · simp only [hs2, if_pos]
      by_cases ha : ({ st with status := mapSet st.status b s } : Engine).autoPaused.contains b
      · simp only [ha, if_pos]
        exact tracked_mapSet_notPlaying st _ b s hsne rfl rfl hInv
      · simp only [ha, Bool.false_eq_true, if_neg, not_false_iff]
        by_cases hap : anyPlaying { st with
            status := mapSet st.status b s,
            pausedStack := removeFromStack st.pausedStack b }
        · simp only [hap, if_pos]
          exact tracked_mapSet_notPlaying st _ b s hsne rfl rfl hInv
        · simp only [hap, Bool.false_eq_true, if_neg, not_false_iff]
          exact tracked_resumeNext plo _ (by simpa using hap)
    · simp only [hs2, Bool.false_eq_true, if_neg, not_false_iff]
      exact tracked_mapSet_notPlaying st _ b s hsne rfl rfl hInv

theorem addPlayer_tracked (po plo : String → Bool) (hpo : ∀ i, po i = true)
    (st : Engine) (b s : String) (hInv : TrackedAtMostOnePlaying st) :
    TrackedAtMostOnePlaying (addPlayer true po plo st b s).1 := by
  unfold addPlayer
  by_cases hc : st.players.contains b
  · simp only [hc, if_pos]
    exact hInv
  · simp only [hc, Bool.false_eq_true, if_neg, not_false_iff]
    apply onStatusChanged_tracked po plo hpo _ b s
    intro k1 k2 hne1 hne2 hc1 hg1 hc2 hg2
    have hm1 : k1 ∈ st.players := by
      rcases List.mem_append.mp (contains_mem hc1) with h | h
      · exact h
      · exact absurd (List.mem_singleton.mp h) hne1
    have hm2 : k2 ∈ st.players := by
      rcases List.mem_append.mp (contains_mem hc2) with h | h
      · exact h
      · exact absurd (List.mem_singleton.mp h) hne2
    exact hInv k1 k2 (mem_contains hm1) hg1 (mem_contains hm2) hg2

theorem afterRemoval_tracked (plo : String → Bool) (st1 : Engine)
    (hInv : TrackedAtMostOnePlaying st1) :
    TrackedAtMostOnePlaying
      (if anyPlaying st1 then (st1, ([] : List Cmd)) else resumeNext plo st1).1 := by
  by_cases hap : anyPlaying st1
  · simp only [hap, if_pos]
    exact hInv
  · simp only [hap, Bool.false_eq_true, if_neg, not_false_iff]
    exact tracked_resumeNext plo st1 (by simpa using hap)

theorem removePlayer_tracked (plo : String → Bool) (st : Engine) (b : String)
    (hInv : TrackedAtMostOnePlaying st) :
    TrackedAtMostOnePlaying (removePlayer plo st b).1 := by
  unfold removePlayer
  apply afterRemoval_tracked
  intro k1 k2 hc1 hg1 hc2 hg2
  simp only [mapGet_mapDelete] at hg1 hg2
  by_cases e1 : k1 = b
  · rw [if_pos e1] at hg1
    exact absurd hg1 (by simp)
  · rw [if_neg e1] at hg1
    by_cases e2 : k2 = b
    · rw [if_pos e2] at hg2
      exact absurd hg2 (by simp)
    · rw [if_neg e2] at hg2
      have hm1 : k1 ∈ st.players := (List.mem_filter.mp (contains_mem hc1)).1
      have hm2 : k2 ∈ st.players := (List.mem_filter.mp (contains_mem hc2)).1
      exact hInv k1 k2 (mem_contains hm1) hg1 (mem_contains hm2) hg2

theorem stepEvent_tracked (po plo : String → Bool) (hpo : ∀ i, po i = true)
    (st : Engine) (e : Event) (hInv : TrackedAtMostOnePlaying st) :
    TrackedAtMostOnePlaying (stepEvent true po plo st e).1 := by
  cases e with
  | note b s =>
      exact onStatusChanged_tracked po plo hpo st b s
        (fun k1 k2 _ _ hc1 hg1 hc2 hg2 => hInv k1 k2 hc1 hg1 hc2 hg2)
  | add b s => exact addPlayer_tracked po plo hpo st b s hInv
  | remove b => exact removePlayer_tracked plo st b hInv

theorem runEvents_tracked (po plo : String → Bool) (hpo : ∀ i, po i = true) :
    ∀ (es : List Event) (st : Engine), TrackedAtMostOnePlaying st →
      TrackedAtMostOnePlaying (runEvents true po plo st es) := by
  intro es
  induction es with
  | nil => intro st h; exact h
  | cons e rest ih =>
      intro st h
      exact ih _ (stepEvent_tracked po plo hpo st e h)

/-! ## Startup scan of the script variant -/

theorem resumeGo_cons (plo : String → Bool) (players : List String)
    (status : List (String × String)) (auto : List String)
    (b : String) (rest : List String) :
    resumeGo plo players status auto (b :: rest) =
      if ((mapGet status b).isNone || !(players.contains b)) = true then
        resumeGo plo players status auto rest
      else if plo b = true then
        ⟨mapSet status b "Playing", setDelete auto b, rest, [Cmd.play b]⟩
      else
        ⟨(resumeGo plo players status auto rest).status,
         (resumeGo plo players status auto rest).autoPaused,
         (resumeGo plo players status auto rest).stack,
         Cmd.play b :: (resumeGo plo players status auto rest).cmds⟩ := rfl

theorem resumeNext_empty (plo : String → Bool) (st : Engine)
    (h : st.pausedStack = []) : resumeNext plo st = (st, []) := by
  obtain ⟨pl, sta, au, stk⟩ := st
  simp only at h
  subst h
  rfl

theorem resumeNext_skip (plo : String → Bool) (st : Engine) (b : String)
    (rest : List String) (hstack : st.pausedStack = b :: rest)
    (hv : ((mapGet st.status b).isNone || !(st.players.contains b)) = true) :
    resumeNext plo st = resumeNext plo { st with pausedStack := rest } := by
  unfold resumeNext
  rw [hstack]
  rw [resumeGo_cons, if_pos hv]

theorem resumeNext_success (plo : String → Bool) (st : Engine) (b : String)
    (rest : List String) (hstack : st.pausedStack = b :: rest)
    (hsome : (mapGet st.status b).isSome = true)
    (hcont : st.players.contains b = true) (hplo : plo b = true) :
    resumeNext plo st =
      ({ st with status := mapSet st.status b "Playing",
                 autoPaused := setDelete st.autoPaused b,
                 pausedStack := rest }, [Cmd.play b]) := by
  unfold resumeNext
  rw [hstack]
  have hv : ((mapGet st.status b).isNone || !(st.players.contains b)) = false := by
    rw [hcont]
    cases hg : mapGet st.status b with
    | none => rw [hg] at hsome; exact absurd hsome (by simp)
    | some v => simp
  have hv2 : ¬ (((mapGet st.status b).isNone || !(st.players.contains b)) = true) := by
    rw [hv]
    exact Bool.false_ne_true
  rw [resumeGo_cons, if_neg hv2, if_pos hplo]

theorem resumeNext_allfail (plo : String → Bool) (hplo : ∀ i, plo i = false)
    (st : Engine) :
    resumeNext plo st =
      ({ st with pausedStack := [] },
       (st.pausedStack.filter
         (fun b => (mapGet st.status b).isSome && st.players.contains b)).map
         Cmd.play) := by
  unfold resumeNext
  rw [resumeGo_allfail plo hplo st.players st.status st.autoPaused st.pausedStack]

/-! ## Claims -/

/-- C1 (amended): for every finite event sequence processed one at a time with
every issued pause command succeeding, at most one tracked endpoint has
recorded status `Playing` once processing settles.  A `Playing` notification
pauses every other tracked endpoint whose recorded status is `Playing`, and a
resume is attempted only when no recorded status is `Playing`.  (As literally
stated the claim fails: a failed pause command leaves the target's recorded
status `Playing`, see the counterexample.) -/
theorem C1_single_player (po plo : String → Bool) (hpo : ∀ i, po i = true)
    (st : Engine) (es : List Event) (hInv : TrackedAtMostOnePlaying st) :
    TrackedAtMostOnePlaying (runEvents true po plo st es) :=
  runEvents_tracked po plo hpo es st hInv

/-- C1 witness: the amended theorem applied to a concrete run. -/
theorem C1_witness :
    TrackedAtMostOnePlaying (runEvents true (fun _ => true) (fun _ => true)
      initEngine
      [Event.add "A" "Playing", Event.add "B" "Stopped", Event.note "B" "Playing"]) :=
  C1_single_player (fun _ => true) (fun _ => true) (fun _ => rfl) initEngine
    [Event.add "A" "Playing", Event.add "B" "Stopped", Event.note "B" "Playing"]
    (fun _ _ hc1 _ _ _ => Bool.noConfusion hc1)

/-- C1 counterexample: when the pause command issued to `A` fails (oracle
always false), processing `A` Playing, then `B` Playing leaves both tracked
endpoints with recorded status `Playing` after all commands completed, so the
claim as stated (for every sequence, at most one tracked `Playing`) is false. -/
theorem C1_counterexample :
    ¬ TrackedAtMostOnePlaying (runEvents true (fun _ => false) (fun _ => true)
      initEngine
      [Event.add "A" "Playing", Event.add "B" "Stopped", Event.note "B" "Playing"]) := by
  intro h
  have hab := h "A" "B" (by decide) (by decide) (by decide) (by decide)
  exact absurd hab (by decide)

/-- C2: in every state reachable from a duplicate-free stack by notifications,
command completions, endpoint additions and removals, the resume stack holds
each identifier at most once; and `_pushStack` first removes any pre-existing
occurrence of the pushed identifier, then inserts it at the front. -/
theorem C2_stack_nodup (enabled : Bool) (po plo : String → Bool) (st : Engine)
    (es : List Event) (h : st.pausedStack.Nodup) :
    (runEvents enabled po plo st es).pausedStack.Nodup ∧
    ∀ (l : List String) (b : String),
      pushStack l b = b :: l.filter (fun x => x != b) :=
  ⟨runEvents_stack_nodup enabled po plo es st h, fun _ _ => rfl⟩

/-- C2 witness: the theorem applied to a concrete run from the empty engine. -/
theorem C2_witness :
    (runEvents true (fun _ => true) (fun _ => true) initEngine
      [Event.add "A" "Playing", Event.add "B" "Playing",
       Event.note "A" "Playing"]).pausedStack.Nodup :=
  (C2_stack_nodup true (fun _ => true) (fun _ => true) initEngine
    [Event.add "A" "Playing", Event.add "B" "Playing", Event.note "A" "Playing"]
    List.nodup_nil).1

/-- C3 (amended): a notification whose status is none of `Playing`, `Paused`,
`Stopped` upserts the raw status value into the registry and does nothing
else: the auto-paused set and the resume stack are unchanged, no command is
issued, and no error is surfaced.  (As literally stated the claim fails: the
registry is not left identical, because `_onStatusChanged` records the raw
value before dispatching on it, see the counterexample.) -/
theorem C3_unknown_status (po plo : String → Bool) (st : Engine) (b s : String)
    (h1 : s ≠ "Playing") (h2 : s ≠ "Paused") (h3 : s ≠ "Stopped") :
    onStatusChanged true po plo st b s =
      ({ st with status := mapSet st.status b s }, []) := by
  unfold onStatusChanged
  simp [beq_eq_false_iff_ne.mpr h1, beq_eq_false_iff_ne.mpr h2,
    beq_eq_false_iff_ne.mpr h3]

/-- C3 witness: the amended theorem applied to a concrete unknown status. -/
theorem C3_witness :
    onStatusChanged true (fun _ => true) (fun _ => true) ⟨["a"], [], [], []⟩
      "a" "Weird" =
      (⟨["a"], [("a", "Weird")], [], []⟩, []) :=
  C3_unknown_status (fun _ => true) (fun _ => true) ⟨["a"], [], [], []⟩ "a" "Weird"
    (by decide) (by decide) (by decide)

/-- C3 counterexample: an unrecognized status value does change the status
registry — `"Weird"` is recorded for `"a"` — so the claim that all engine
state (including the registry) is identical before and after is false. -/
theorem C3_counterexample :
    (onStatusChanged true (fun _ => true) (fun _ => true) ⟨["a"], [], [], []⟩
      "a" "Weird").1.status ≠ (⟨["a"], [], [], []⟩ : Engine).status := by decide

/-- C4 (amended): in the gnome-extension `_pausePlayer`, if the pause command
issued for a tracked endpoint fails, afterwards the endpoint's auto-paused
flag is cleared, its recorded status and the resume stack are exactly as
before, and exactly one pause command (no retry) was issued.  (As literally
stated, over all the cited implementations, the claim fails: the bash
variant's `pause_player` discards the command outcome and mutates state
unconditionally, see the counterexample.) -/
theorem C4_pause_failure_atomic (po : String → Bool) (st : Engine) (b : String)
    (hc : st.players.contains b = true) (hf : po b = false) :
    pausePlayer po st b =
      ({ st with autoPaused := setDelete st.autoPaused b }, [Cmd.pause b]) ∧
    (pausePlayer po st b).1.autoPaused.contains b = false ∧
    (pausePlayer po st b).1.status = st.status ∧
    (pausePlayer po st b).1.pausedStack = st.pausedStack := by
  have heq : pausePlayer po st b =
      ({ st with autoPaused := setDelete st.autoPaused b }, [Cmd.pause b]) := by
    unfold pausePlayer pausePlayerComplete pausePlayerIssue
    rw [if_pos hc, if_pos hc, if_neg (by rw [hf]; exact Bool.false_ne_true)]
    simp only []
    rw [setDelete_setAdd]
  refine ⟨heq, ?_, ?_, ?_⟩
  · rw [heq]
    simp only []
    rw [contains_setDelete]
    simp
  · rw [heq]
  · rw [heq]

/-- C4 witness: the theorem applied to a concrete failing pause. -/
theorem C4_witness :
    pausePlayer (fun _ => false) ⟨["A"], [("A", "Playing")], ["A"], []⟩ "A" =
      (⟨["A"], [("A", "Playing")], [], []⟩, [Cmd.pause "A"]) :=
  (C4_pause_failure_atomic (fun _ => false) ⟨["A"], [("A", "Playing")], ["A"], []⟩
    "A" (by decide) rfl).1

/-- C4 counterexample: the bash variant's `pause_player` (cited by the claim)
runs `playerctl pause` with any failure swallowed and then mutates state
unconditionally, so also when the remote pause command fails the auto-paused
flag ends up set (not cleared), the recorded status is changed from `Playing`
to `Paused` (not the same as before), and the identifier is pushed onto the
resume stack (not the same as before) — refuting the claimed failure
atomicity for this cited implementation. -/
theorem C4_counterexample :
    (pause_player ⟨[("A", "Playing")], [], []⟩ "A").AUTO_PAUSED.contains "A" =
      true ∧
    mapGet (pause_player ⟨[("A", "Playing")], [], []⟩ "A").STATUS "A" =
      some "Paused" ∧
    (pause_player ⟨[("A", "Playing")], [], []⟩ "A").QUEUE.contains "A" = true := by
  decide

/-- C5 (amended): in the Resume Procedure, a popped identifier with no
registry entry or no player record is silently discarded and the next entry
is popped; a popped identifier whose play command succeeds ends the loop
after that single play command; and if every play command fails the loop
drains the stack, issuing one play per valid entry in order, leaving the
registry, the auto-paused set and the player set untouched — the system is
simply idle.  (As literally stated the claim fails: on a play failure this
variant does not discard the identifier's registry entry, see the
counterexample.) -/
theorem C5_resume_loop (plo : String → Bool) :
    (∀ (st : Engine) (b : String) (rest : List String),
      st.pausedStack = b :: rest →
      ((mapGet st.status b).isNone || !(st.players.contains b)) = true →
      resumeNext plo st = resumeNext plo { st with pausedStack := rest }) ∧
    (∀ (st : Engine) (b : String) (rest : List String),
      st.pausedStack = b :: rest →
      (mapGet st.status b).isSome = true → st.players.contains b = true →
      plo b = true →
      resumeNext plo st =
        ({ st with status := mapSet st.status b "Playing",
                   autoPaused := setDelete st.autoPaused b,
                   pausedStack := rest }, [Cmd.play b])) ∧
    ((∀ i, plo i = false) → ∀ st : Engine,
      resumeNext plo st =
        ({ st with pausedStack := [] },
         (st.pausedStack.filter
           (fun b => (mapGet st.status b).isSome && st.players.contains b)).map
           Cmd.play)) :=
  ⟨fun st b rest h1 h2 => resumeNext_skip plo st b rest h1 h2,
   fun st b rest h1 h2 h3 h4 => resumeNext_success plo st b rest h1 h2 h3 h4,
   fun hplo st => resumeNext_allfail plo hplo st⟩

/-- C5 witness: the success case of the theorem at a concrete state. -/
theorem C5_witness :
    resumeNext (fun _ => true) ⟨["A"], [("A", "Paused")], ["A"], ["A"]⟩ =
      (⟨["A"], [("A", "Playing")], [], []⟩, [Cmd.play "A"]) :=
  (C5_resume_loop (fun _ => true)).2.1 ⟨["A"], [("A", "Paused")], ["A"], ["A"]⟩
    "A" [] rfl (by decide) (by decide) rfl

/-- C5 counterexample: a failing play command for `"A"` discards `"A"` from
the stack but leaves its registry entry in place (`some "Paused"`), so the
claim that the identifier and its registry entry are both discarded is false
for this code. -/
theorem C5_counterexample :
    mapGet (resumeNext (fun _ => false)
      ⟨["A"], [("A", "Paused")], [], ["A"]⟩).1.status "A" = some "Paused" ∧
    (resumeNext (fun _ => false) ⟨["A"], [("A", "Paused")], [], ["A"]⟩).2 =
      [Cmd.play "A"] ∧
    (resumeNext (fun _ => false)
      ⟨["A"], [("A", "Paused")], [], ["A"]⟩).1.pausedStack = [] := by decide

/-- C6: when the auto-paused flag of an endpoint is set, a `Paused` or
`Stopped` notification for it only records the notified status and clears the
flag: the resume stack is untouched, no resume attempt is triggered and no
command is issued (echo suppression). -/
theorem C6_echo_suppression (po plo : String → Bool) (st : Engine) (b s : String)
    (hs : s = "Paused" ∨ s = "Stopped") (ha : st.autoPaused.contains b = true) :
    onStatusChanged true po plo st b s =
      ({ st with status := mapSet st.status b s,
                 autoPaused := setDelete st.autoPaused b }, []) ∧
    (onStatusChanged true po plo st b s).1.pausedStack = st.pausedStack ∧
    (onStatusChanged true po plo st b s).2 = [] := by
  have hsnp : (s == "Playing") = false := by
    rcases hs with h | h <;> rw [h] <;> rfl
  have hsps : (s == "Paused" || s == "Stopped") = true := by
    rcases hs with h | h <;> rw [h] <;> rfl
  have heq : onStatusChanged true po plo st b s =
      ({ st with status := mapSet st.status b s,
                 autoPaused := setDelete st.autoPaused b }, []) := by
    unfold onStatusChanged
    simp [hsnp, hsps, contains_mem ha]
  exact ⟨heq, by rw [heq], by rw [heq]⟩

/-- C6 witness: the theorem applied to a concrete echoed pause. -/
theorem C6_witness :
    onStatusChanged true (fun _ => true) (fun _ => true)
      ⟨["A", "B"], [("A", "Playing"), ("B", "Playing")], ["B"], ["X"]⟩ "B" "Paused" =
      (⟨["A", "B"], [("A", "Playing"), ("B", "Paused")], [], ["X"]⟩, []) :=
  (C6_echo_suppression (fun _ => true) (fun _ => true)
    ⟨["A", "B"], [("A", "Playing"), ("B", "Playing")], ["B"], ["X"]⟩ "B" "Paused"
    (Or.inl rfl) (by decide)).1

/-- C7: auto-pausing `A`, then `B`, then `C` puts `[C, B, A]` on the resume
stack (push inserts at the front), and with all three still tracked three
successive runs of the Resume Procedure (all play commands succeeding) issue
`Play` to `C`, then `B`, then `A`, draining the stack (LIFO order). -/
theorem C7_lifo_order (plo : String → Bool) (hplo : ∀ i, plo i = true)
    (a b c : String) (st : Engine)
    (hba : b ≠ a) (hca : c ≠ a) (hcb : c ≠ b)
    (hstack : st.pausedStack = [c, b, a])
    (ha1 : (mapGet st.status a).isSome = true) (ha2 : st.players.contains a = true)
    (hb1 : (mapGet st.status b).isSome = true) (hb2 : st.players.contains b = true)
    (hc1 : (mapGet st.status c).isSome = true) (hc2 : st.players.contains c = true) :
    pushStack (pushStack (pushStack [] a) b) c = [c, b, a] ∧
    (resumeNext plo st).2 = [Cmd.play c] ∧
    (resumeNext plo (resumeNext plo st).1).2 = [Cmd.play b] ∧
    (resumeNext plo (resumeNext plo (resumeNext plo st).1).1).2 = [Cmd.play a] ∧
    (resumeNext plo (resumeNext plo (resumeNext plo st).1).1).1.pausedStack = [] := by
  have hpush : pushStack (pushStack (pushStack [] a) b) c = [c, b, a] := by
    unfold pushStack
    simp [List.filter_cons, bne_iff_ne, Ne.symm hba, Ne.symm hca, Ne.symm hcb,
      hca, hcb]
  have h1 := resumeNext_success plo st c [b, a] hstack hc1 hc2 (hplo c)
  have hb1m : (mapGet (mapSet st.status c "Playing") b).isSome = true := by
    rw [mapGet_mapSet, if_neg (Ne.symm hcb)]
    exact hb1
  have h2 := resumeNext_success plo
    { st with status := mapSet st.status c "Playing",
              autoPaused := setDelete st.autoPaused c, pausedStack := [b, a] }
    b [a] rfl hb1m hb2 (hplo b)
  have ha1m : (mapGet (mapSet (mapSet st.status c "Playing") b "Playing") a).isSome =
      true := by
    rw [mapGet_mapSet, if_neg (Ne.symm hba), mapGet_mapSet, if_neg (Ne.symm hca)]
    exact ha1
  have h3 := resumeNext_success plo
    { st with status := mapSet (mapSet st.status c "Playing") b "Playing",
              autoPaused := setDelete (setDelete st.autoPaused c) b,
              pausedStack := [a] }
    a [] rfl ha1m ha2 (hplo a)
  refine ⟨hpush, ?_, ?_, ?_, ?_⟩
  · rw [h1]
  · rw [h1]
    rw [h2]
  · rw [h1]
    rw [h2]
    rw [h3]
  · rw [h1]
    rw [h2]
    rw [h3]

/-- C7 witness: the theorem applied to three concrete endpoints. -/
theorem C7_witness :
    (resumeNext (fun _ => true)
      ⟨["A", "B", "C"],
       [("A", "Paused"), ("B", "Paused"), ("C", "Paused")], [],
       ["C", "B", "A"]⟩).2 = [Cmd.play "C"] :=
  (C7_lifo_order (fun _ => true) (fun _ => rfl) "A" "B" "C"
    ⟨["A", "B", "C"], [("A", "Paused"), ("B", "Paused"), ("C", "Paused")], [],
     ["C", "B", "A"]⟩
    (by decide) (by decide) (by decide) rfl
    (by decide) (by decide) (by decide) (by decide) (by decide) (by decide)).2.1

/-- C9 (amended): at the moment the Pause Procedure issues its pause command
for a tracked endpoint, the endpoint's auto-paused flag is already set but
the resume stack is still unchanged — the push happens only in the success
completion handler, which places the identifier at the front.  (As literally
stated the claim fails: the identifier is not yet on the stack at issue time,
see the counterexample.) -/
theorem C9_push_at_completion (st : Engine) (b : String)
    (hc : st.players.contains b = true) :
    (pausePlayerIssue st b).autoPaused.contains b = true ∧
    (pausePlayerIssue st b).pausedStack = st.pausedStack ∧
    (pausePlayerComplete (pausePlayerIssue st b) b true).pausedStack =
      pushStack st.pausedStack b := by
  unfold pausePlayerIssue pausePlayerComplete
  rw [if_pos hc]
  refine ⟨?_, rfl, ?_⟩
  · simp only []
    rw [contains_setAdd]
    simp
  · simp

/-- C9 witness: the amended theorem at a concrete state. -/
theorem C9_witness :
    (pausePlayerIssue ⟨["A"], [("A", "Playing")], [], []⟩ "A").autoPaused.contains
      "A" = true :=
  (C9_push_at_completion ⟨["A"], [("A", "Playing")], [], []⟩ "A" (by decide)).1

/-- C9 counterexample: after the issue-time mutation of the Pause Procedure
(auto-paused flag set, command sent) the stack does not yet contain the
endpoint, refuting the claim that it is already pushed at issue time. -/
theorem C9_counterexample :
    (pausePlayerIssue ⟨["A"], [("A", "Playing")], [], []⟩ "A").pausedStack.contains
      "A" = false := by decide

/-- C10: with the `'enabled'` setting false, `_onStatusChanged` returns
immediately: the status registry, the auto-paused set and the resume stack
are all unchanged — the raw status is not even recorded — and no command is
issued. -/
theorem C10_disabled_ignored (po plo : String → Bool) (st : Engine)
    (b s : String) : onStatusChanged false po plo st b s = (st, []) := rfl
